import Mathlib

/-!
Verification development for the smude checkpoint-migration utilities.

Python strings are modelled as lists of characters, Python dicts as
association lists in insertion order (assignment to an existing key
replaces the value in place; assignment to a fresh key appends).
The key-cleaning chain of scripts/extract_model_weights.py, the flexible
loader of smude/loader.py and the smoke-test load step are translated
below, and the spec's testable properties are proved about them.
-/

namespace Smude

/-- A Python string, modelled as its list of characters. -/
abbrev Str := List Char

/-- A Python dict from strings to values, in insertion order. -/
abbrev SD (α : Type) := List (Str × α)

/-- Python `k.startswith(p)`: `startswith p k` is true when `p` is an initial
segment of `k`. -/
def startswith : Str → Str → Bool
  | [], _ => true
  | _ :: _, [] => false
  | p :: ps, c :: cs => p == c && startswith ps cs

/-- The fixed legacy wrapper key namespace, the string "net.". -/
def netPref : Str := "net.".toList

/-- The bare wrapper segment, the string "net". -/
def netSeg : Str := "net".toList

/-- Whether the dict `t` already has an entry for key `k`. -/
def keyMem {α : Type} (t : SD α) (k : Str) : Bool :=
  t.any (fun p => p.1 == k)

/-- Python dict assignment `t[k] = v`: replace the value in place if the key
exists, otherwise append the new binding. -/
def dinsert {α : Type} (t : SD α) (k : Str) (v : α) : SD α :=
  if keyMem t k then t.map (fun p => if p.1 == k then (k, v) else p)
  else t ++ [(k, v)]

/-- One step of the dict comprehension in strip_prefix of
scripts/extract_model_weights.py: keep an entry only when its key starts with
`p`, binding the key with `p` removed. -/
def stripStep {α : Type} (p : Str) (t : SD α) (kv : Str × α) : SD α :=
  if startswith p kv.1 then dinsert t (kv.1.drop p.length) kv.2 else t

/-- Function strip_prefix of scripts/extract_model_weights.py: the dict
comprehension keeping the entries whose key starts with `p`, with `p`
removed from the key. -/
def strip_prefix {α : Type} (d : SD α) (p : Str) : SD α :=
  d.foldl (stripStep p) []

/-- Python `k.split(".", 1)[1]` combined with the `"." in k` guard: the part
of `k` after its first dot, or `none` when `k` has no dot. -/
def splitRest : Str → Option Str
  | [] => none
  | c :: cs => if c == '.' then some cs else splitRest cs

/-- One iteration of the tentative-dict loop of strategy 3b:
`if "." in k: tentative[k.split(".", 1)[1]] = v`. -/
def tentStep {α : Type} (t : SD α) (kv : Str × α) : SD α :=
  match splitRest kv.1 with
  | some r => dinsert t r kv.2
  | none => t

/-- The tentative dict built by strategy 3b of
scripts/extract_model_weights.py. -/
def buildTentative {α : Type} (d : SD α) : SD α :=
  d.foldl tentStep []

/-- The key-cleaning chain of scripts/extract_model_weights.py (strategies 3a
and 3b): strip "net." directly; if that is empty, drop each key's first
segment and strip "net." again, keeping the once-shortened keys when the
second strip is empty (Python's or-else of the twice- and once-shortened
dicts). -/
def cleanKeys {α : Type} (d : SD α) : SD α :=
  if ( strip_prefix d netPref).isEmpty then
    if ( strip_prefix (buildTentative d) netPref).isEmpty then buildTentative d
    else strip_prefix (buildTentative d) netPref
  else strip_prefix d netPref

/-- The three cleaning strategies of scripts/extract_model_weights.py. -/
inductive Strategy where
  | s3a
  | s3b
  | s3c
  deriving DecidableEq

/-- The strategies scripts/extract_model_weights.py attempts on a given state
dict, in order: 3a always runs; 3b runs exactly when 3a was empty; the legacy
loader 3c runs exactly when the result after 3b is still empty. -/
def strategyTrace {α : Type} (d : SD α) : List Strategy :=
  if ( strip_prefix d netPref).isEmpty then
    if (if ( strip_prefix (buildTentative d) netPref).isEmpty then
          buildTentative d
        else strip_prefix (buildTentative d) netPref).isEmpty then
      [Strategy.s3a, Strategy.s3b, Strategy.s3c]
    else [Strategy.s3a, Strategy.s3b]
  else [Strategy.s3a]

/-- Reference form of the stripping comprehension as filter-and-map; the two
agree when the input keys are distinct, which always holds for a Python
dict. -/
def specStrip {α : Type} (p : Str) (d : SD α) : SD α :=
  (d.filter (fun kv => startswith p kv.1)).map
    (fun kv => (kv.1.drop p.length, kv.2))

/-! Basic facts about `startswith`, `splitRest`, `dinsert` and the folds. -/

theorem startswith_iff (p k : Str) :
    startswith p k = true ↔ ∃ r, k = p ++ r := by
  induction p generalizing k with
  | nil =>
    simp [startswith]
  | cons a ps ih =>
    cases k with
    | nil =>
      simp [startswith]
    | cons c cs =>
      simp only [startswith, Bool.and_eq_true, beq_iff_eq, ih]
      constructor
      · rintro ⟨rfl, r, rfl⟩
        exact ⟨r, rfl⟩
      · rintro ⟨r, hr⟩
        cases hr
        exact ⟨rfl, r, rfl⟩

theorem startswith_append (p r : Str) : startswith p (p ++ r) = true :=
  (startswith_iff p (p ++ r)).mpr ⟨r, rfl⟩

theorem append_drop_of_startswith {p k : Str} (h : startswith p k = true) :
    p ++ k.drop p.length = k := by
  obtain ⟨r, rfl⟩ := (startswith_iff p k).mp h
  rw [List.drop_left]

theorem drop_inj_of_startswith {p k₁ k₂ : Str}
    (h₁ : startswith p k₁ = true) (h₂ : startswith p k₂ = true)
    (h : k₁.drop p.length = k₂.drop p.length) : k₁ = k₂ := by
  rw [← append_drop_of_startswith h₁, ← append_drop_of_startswith h₂, h]

theorem splitRest_some {k r : Str} (h : splitRest k = some r) :
    ∃ s : Str, '.' ∉ s ∧ k = s ++ '.' :: r := by
  induction k with
  | nil => simp [splitRest] at h
  | cons c cs ih =>
    by_cases hc : c = '.'
    · subst hc
      simp [splitRest] at h
      exact ⟨[], by simp, by simp [h]⟩
    · have hc' : (c == '.') = false := by simpa using hc
      rw [splitRest, hc'] at h
      simp only [Bool.false_eq_true, if_false] at h
      obtain ⟨s, hs, hk⟩ := ih h
      refine ⟨c :: s, ?_, by simp [hk]⟩
      intro hmem
      rcases List.mem_cons.mp hmem with h1 | h1
      · exact hc h1.symm
      · exact hs h1

theorem dot_mem_iff_splitRest (k : Str) :
    '.' ∈ k ↔ (splitRest k).isSome = true := by
  induction k with
  | nil => simp [splitRest]
  | cons c cs ih =>
    by_cases hc : c = '.'
    · subst hc
      simp [splitRest]
    · have hc' : (c == '.') = false := by simpa using hc
      simp only [splitRest, hc', Bool.false_eq_true, if_false, List.mem_cons, ih]
      constructor
      · rintro (h1 | h1)
        · exact absurd h1.symm hc
        · exact h1
      · exact Or.inr

theorem keyMem_iff {α : Type} (t : SD α) (k : Str) :
    keyMem t k = true ↔ k ∈ t.map Prod.fst := by
  rw [keyMem, List.any_eq_true]
  constructor
  · rintro ⟨kv, hkv, he⟩
    exact List.mem_map.mpr ⟨kv, hkv, beq_iff_eq.mp he⟩
  · intro hm
    obtain ⟨kv, hkv, he⟩ := List.mem_map.mp hm
    exact ⟨kv, hkv, beq_iff_eq.mpr he⟩

theorem keyMem_append {α : Type} (a b : SD α) (k : Str) :
    keyMem (a ++ b) k = (keyMem a k || keyMem b k) := by
  simp [keyMem, List.any_append]

theorem dinsert_ne_nil {α : Type} (t : SD α) (k : Str) (v : α) :
    dinsert t k v ≠ [] := by
  unfold dinsert
  by_cases h : keyMem t k = true
  · rw [if_pos h]
    cases t with
    | nil => simp [keyMem] at h
    | cons a t' => simp
  · rw [if_neg h]
    simp

theorem mem_dinsert {α : Type} {t : SD α} {k : Str} {v : α} {kv : Str × α}
    (h : kv ∈ dinsert t k v) : kv = (k, v) ∨ kv ∈ t := by
  unfold dinsert at h
  by_cases hm : keyMem t k = true
  · rw [if_pos hm] at h
    obtain ⟨q, hq, hqe⟩ := List.mem_map.mp h
    by_cases hqk : (q.1 == k) = true
    · rw [if_pos hqk] at hqe
      exact Or.inl hqe.symm
    · rw [if_neg hqk] at hqe
      exact Or.inr (hqe ▸ hq)
  · simp only [Bool.not_eq_true] at hm
    rw [if_neg (by simp [hm])] at h
    rcases List.mem_append.mp h with h' | h'
    · exact Or.inr h'
    · simp at h'
      exact Or.inl (by simp [h'])

theorem dinsert_of_not_mem {α : Type} {t : SD α} {k : Str} (v : α)
    (h : keyMem t k = false) : dinsert t k v = t ++ [(k, v)] := by
  simp [dinsert, h]

theorem foldl_ne_nil {α : Type} (step : SD α → Str × α → SD α)
    (hstep : ∀ t kv, t ≠ [] → step t kv ≠ []) :
    ∀ (d : SD α) (acc : SD α), acc ≠ [] → d.foldl step acc ≠ [] := by
  intro d
  induction d with
  | nil => intro acc h; simpa using h
  | cons kv d' ih =>
    intro acc h
    exact ih (step acc kv) (hstep acc kv h)

theorem stripStep_ne_nil {α : Type} (p : Str) (t : SD α) (kv : Str × α)
    (h : t ≠ []) : stripStep p t kv ≠ [] := by
  unfold stripStep
  by_cases hs : startswith p kv.1 = true
  · rw [if_pos hs]; exact dinsert_ne_nil _ _ _
  · rw [if_neg hs]; exact h

theorem tentStep_ne_nil {α : Type} (t : SD α) (kv : Str × α)
    (h : t ≠ []) : tentStep t kv ≠ [] := by
  unfold tentStep
  cases hr : splitRest kv.1 with
  | none => exact h
  | some r => exact dinsert_ne_nil _ _ _

theorem strip_prefix_eq_nil_iff {α : Type} (d : SD α) (p : Str) :
    strip_prefix d p = [] ↔ ∀ kv ∈ d, startswith p kv.1 = false := by
  have gen : ∀ (d : SD α) (acc : SD α), d.foldl (stripStep p) acc = [] →
      acc = [] ∧ ∀ kv ∈ d, startswith p kv.1 = false := by
    intro d
    induction d with
    | nil => intro acc h; exact ⟨h, by simp⟩
    | cons kv d' ih =>
      intro acc h
      rw [List.foldl_cons] at h
      obtain ⟨h1, h2⟩ := ih (stripStep p acc kv) h
      by_cases hs : startswith p kv.1 = true
      · exfalso
        exact stripStep_ne_nil p acc kv (by
          intro hacc
          rw [hacc] at h1
          unfold stripStep at h1
          rw [if_pos hs] at h1
          exact dinsert_ne_nil _ _ _ h1) h1
      · have hacc : acc = [] := by
          unfold stripStep at h1
          rw [if_neg hs] at h1
          exact h1
        refine ⟨hacc, ?_⟩
        intro kv' hkv'
        rcases List.mem_cons.mp hkv' with h' | h'
        · subst h'
          exact Bool.not_eq_true _ ▸ (by simpa using hs)
        · exact h2 kv' h'
  constructor
  · intro h
    exact (gen d [] h).2
  · intro h
    unfold strip_prefix
    induction d with
    | nil => simp
    | cons kv d' ih =>
      rw [List.foldl_cons]
      have hs := h kv (by simp)
      have : stripStep p [] kv = [] := by
        unfold stripStep
        rw [if_neg (by simp [hs])]
      rw [this]
      exact ih (fun kv' h' => h kv' (List.mem_cons_of_mem _ h'))

theorem buildTentative_ne_nil {α : Type} (d : SD α)
    (h : ∃ kv ∈ d, (splitRest kv.1).isSome = true) : buildTentative d ≠ [] := by
  unfold buildTentative
  obtain ⟨kv, hkv, hsome⟩ := h
  obtain ⟨l₁, l₂, rfl⟩ := List.append_of_mem hkv
  rw [List.foldl_append, List.foldl_cons]
  apply foldl_ne_nil tentStep tentStep_ne_nil
  cases hr : splitRest kv.1 with
  | none => rw [hr] at hsome; simp at hsome
  | some r =>
    unfold tentStep
    rw [hr]
    exact dinsert_ne_nil _ _ _

theorem mem_foldl_stripStep {α : Type} (p : Str) :
    ∀ (d : SD α) (acc : SD α) (kv' : Str × α), kv' ∈ d.foldl (stripStep p) acc →
      kv' ∈ acc ∨ ∃ kv ∈ d, startswith p kv.1 = true ∧
        kv'.1 = kv.1.drop p.length ∧ kv'.2 = kv.2 := by
  intro d
  induction d with
  | nil => intro acc kv' h; exact Or.inl (by simpa using h)
  | cons kv d' ih =>
    intro acc kv' h
    rw [List.foldl_cons] at h
    rcases ih (stripStep p acc kv) kv' h with h' | h'
    · unfold stripStep at h'
      by_cases hs : startswith p kv.1 = true
      · rw [if_pos hs] at h'
        rcases mem_dinsert h' with he | he
        · exact Or.inr ⟨kv, by simp, hs, by simp [he], by simp [he]⟩
        · exact Or.inl he
      · rw [if_neg hs] at h'
        exact Or.inl h'
    · obtain ⟨kv₀, hkv₀, hrest⟩ := h'
      exact Or.inr ⟨kv₀, List.mem_cons_of_mem _ hkv₀, hrest⟩

theorem mem_strip_prefix_src {α : Type} {d : SD α} {p : Str} {kv' : Str × α}
    (h : kv' ∈ strip_prefix d p) :
    ∃ kv ∈ d, startswith p kv.1 = true ∧
      kv'.1 = kv.1.drop p.length ∧ kv'.2 = kv.2 := by
  rcases mem_foldl_stripStep p d [] kv' h with h' | h'
  · simp at h'
  · exact h'

theorem mem_buildTentative_src {α : Type} {d : SD α} {kv' : Str × α}
    (h : kv' ∈ buildTentative d) :
    ∃ kv ∈ d, splitRest kv.1 = some kv'.1 ∧ kv'.2 = kv.2 := by
  have gen : ∀ (d : SD α) (acc : SD α) (kv' : Str × α),
      kv' ∈ d.foldl tentStep acc →
      kv' ∈ acc ∨ ∃ kv ∈ d, splitRest kv.1 = some kv'.1 ∧ kv'.2 = kv.2 := by
    intro d
    induction d with
    | nil => intro acc kv' h; exact Or.inl (by simpa using h)
    | cons kv d' ih =>
      intro acc kv' h
      rw [List.foldl_cons] at h
      rcases ih (tentStep acc kv) kv' h with h' | h'
      · unfold tentStep at h'
        cases hr : splitRest kv.1 with
        | none => rw [hr] at h'; exact Or.inl h'
        | some r =>
          rw [hr] at h'
          rcases mem_dinsert h' with he | he
          · exact Or.inr ⟨kv, by simp, by simp [hr, he], by simp [he]⟩
          · exact Or.inl he
      · obtain ⟨kv₀, hkv₀, hrest⟩ := h'
        exact Or.inr ⟨kv₀, List.mem_cons_of_mem _ hkv₀, hrest⟩
  rcases gen d [] kv' h with h' | h'
  · simp at h'
  · exact h'

theorem foldl_stripStep_eq {α : Type} (p : Str) :
    ∀ (d : SD α) (acc : SD α),
      (d.map Prod.fst).Nodup →
      (∀ kv ∈ d, startswith p kv.1 = true →
        keyMem acc (kv.1.drop p.length) = false) →
      d.foldl (stripStep p) acc = acc ++ specStrip p d := by
  intro d
  induction d with
  | nil => intro acc _ _; simp [specStrip]
  | cons kv d' ih =>
    intro acc hnd hdisj
    have hnd₁ : (kv.1 :: d'.map Prod.fst).Nodup := by
      rw [List.map_cons] at hnd
      exact hnd
    have hnd₀ := List.nodup_cons.mp hnd₁
    rw [List.foldl_cons]
    by_cases hs : startswith p kv.1 = true
    · have hacc : stripStep p acc kv = acc ++ [(kv.1.drop p.length, kv.2)] := by
        unfold stripStep
        rw [if_pos hs]
        exact dinsert_of_not_mem _ (hdisj kv (by simp) hs)
      have hdisj' : ∀ kv' ∈ d', startswith p kv'.1 = true →
          keyMem (acc ++ [(kv.1.drop p.length, kv.2)])
            (kv'.1.drop p.length) = false := by
        intro kv' hkv' hs'
        rw [keyMem_append]
        have h1 := hdisj kv' (List.mem_cons_of_mem _ hkv') hs'
        have h2 : keyMem [(kv.1.drop p.length, kv.2)]
            (kv'.1.drop p.length) = false := by
          simp only [keyMem, List.any_cons, List.any_nil, Bool.or_false]
          rw [beq_eq_false_iff_ne]
          intro he
          have heq : kv.1 = kv'.1 := drop_inj_of_startswith hs hs' he
          exact hnd₀.1 (heq ▸ List.mem_map.mpr ⟨kv', hkv', rfl⟩)
        rw [h1, h2]
        rfl
      rw [hacc, ih _ hnd₀.2 hdisj', List.append_assoc]
      congr 1
      simp [specStrip, hs]
    · have hacc : stripStep p acc kv = acc := by
        unfold stripStep
        rw [if_neg hs]
      have hdisj' : ∀ kv' ∈ d', startswith p kv'.1 = true →
          keyMem acc (kv'.1.drop p.length) = false :=
        fun kv' hkv' hs' => hdisj kv' (List.mem_cons_of_mem _ hkv') hs'
      rw [hacc, ih _ hnd₀.2 hdisj']
      congr 1
      simp only [specStrip]
      rw [List.filter_cons_of_neg (by simpa using hs)]

theorem strip_prefix_eq_specStrip {α : Type} (d : SD α) (p : Str)
    (hnd : (d.map Prod.fst).Nodup) : strip_prefix d p = specStrip p d := by
  have h := foldl_stripStep_eq p d []
    hnd (by intro kv _ _; simp [keyMem])
  simpa [ strip_prefix] using h

theorem mem_specStrip_iff {α : Type} (p : Str) (d : SD α) (k : Str) (v : α) :
    (k, v) ∈ specStrip p d ↔ (p ++ k, v) ∈ d := by
  constructor
  · intro h
    obtain ⟨kv, hkv, he⟩ := List.mem_map.mp h
    have hf := List.mem_filter.mp hkv
    have hs : startswith p kv.1 = true := by simpa using hf.2
    have h1 : kv.1.drop p.length = k := congrArg Prod.fst he
    have h2 : kv.2 = v := congrArg Prod.snd he
    have hk : p ++ k = kv.1 := by
      rw [← h1]
      exact append_drop_of_startswith hs
    rw [hk, ← h2]
    exact hf.1
  · intro h
    apply List.mem_map.mpr
    refine ⟨(p ++ k, v),
      List.mem_filter.mpr ⟨h, by simpa using startswith_append p k⟩, ?_⟩
    simp [List.drop_left]

/-! Branch equations for the cleaning chain. -/

theorem cleanKeys_of_strip_ne {α : Type} (d : SD α)
    (h : strip_prefix d netPref ≠ []) :
    cleanKeys d = strip_prefix d netPref := by
  unfold cleanKeys
  rw [if_neg (by simpa [List.isEmpty_iff] using h)]

theorem cleanKeys_of_strip2_ne {α : Type} (d : SD α)
    (h1 : strip_prefix d netPref = [])
    (h2 : strip_prefix (buildTentative d) netPref ≠ []) :
    cleanKeys d = strip_prefix (buildTentative d) netPref := by
  unfold cleanKeys
  rw [if_pos (by simp [List.isEmpty_iff, h1]),
    if_neg (by simpa [List.isEmpty_iff] using h2)]

theorem cleanKeys_of_both_nil {α : Type} (d : SD α)
    (h1 : strip_prefix d netPref = [])
    (h2 : strip_prefix (buildTentative d) netPref = []) :
    cleanKeys d = buildTentative d := by
  unfold cleanKeys
  rw [if_pos (by simp [List.isEmpty_iff, h1]),
    if_pos (by simp [List.isEmpty_iff, h2])]

/-! Claim C1: prefix stripping (strategy 3a). -/

/-- Input dict refuting the absence clause of the prefix-stripping claim:
it has a "net."-prefixed key whose stripped form is itself another input key. -/
def dStripCex : SD Nat := [("net.a".toList, 1), ("a".toList, 2)]

/-- C1, counterexample: in `{"net.a": 1, "a": 2}` the keys are distinct and
strategy 3a yields a non-empty result, the input key "a" does not start with
"net.", yet "a" is a key of the cleaned mapping (it is the stripped form of
"net.a"); so an input key not starting with "net." is not always absent from
the cleaned mapping. -/
theorem stripAbsenceCounterexample :
    (dStripCex.map Prod.fst).Nodup ∧
    strip_prefix dStripCex netPref ≠ [] ∧
    ("a".toList, 2) ∈ dStripCex ∧
    startswith netPref ("a".toList) = false ∧
    "a".toList ∈ ( strip_prefix dStripCex netPref).map Prod.fst := by
  decide

/-- C1, amended: for an input mapping with distinct keys whose strategy-3a
result is non-empty, the cleaned mapping maps k to v exactly when the input
maps "net." ++ k to v; every input key starting with "net." appears with that
prefix removed and the same value; and every input key k not starting with
"net." is absent from the cleaned mapping unless "net." ++ k is also an input
key. -/
theorem stripCorrectAmended {α : Type} (d : SD α)
    (hnd : (d.map Prod.fst).Nodup)
    (_hne : strip_prefix d netPref ≠ []) :
    (∀ (k : Str) (v : α),
        (k, v) ∈ strip_prefix d netPref ↔ (netPref ++ k, v) ∈ d) ∧
    (∀ (k : Str) (v : α), (k, v) ∈ d → startswith netPref k = true →
        (k.drop netPref.length, v) ∈ strip_prefix d netPref) ∧
    (∀ (k : Str) (v : α), (k, v) ∈ d → startswith netPref k = false →
        netPref ++ k ∉ d.map Prod.fst →
        k ∉ ( strip_prefix d netPref).map Prod.fst) := by
  have hspec := strip_prefix_eq_specStrip d netPref hnd
  refine ⟨?_, ?_, ?_⟩
  · intro k v
    rw [hspec]
    exact mem_specStrip_iff netPref d k v
  · intro k v hkv hs
    rw [hspec]
    apply (mem_specStrip_iff netPref d _ v).mpr
    rw [append_drop_of_startswith hs]
    exact hkv
  · intro k v hkv hs habs hmem
    obtain ⟨kv', hkv', hfst⟩ := List.mem_map.mp hmem
    have hpair : (k, kv'.2) ∈ strip_prefix d netPref := by
      rcases kv' with ⟨k', v'⟩
      cases hfst
      exact hkv'
    have hin := (mem_specStrip_iff netPref d k kv'.2).mp (hspec ▸ hpair)
    exact habs (List.mem_map.mpr ⟨(netPref ++ k, kv'.2), hin, rfl⟩)

/-- The spec's stripping scenario input `{"net.enc.weight": 1, "net.enc.bias": 2}`. -/
def dStripScenario : SD Nat :=
  [("net.enc.weight".toList, 1), ("net.enc.bias".toList, 2)]

/-- Witness for the amended C1 at the spec's scenario input. -/
theorem stripCorrectAmendedWitness :
    ("enc.weight".toList, 1) ∈ strip_prefix dStripScenario netPref :=
  (( stripCorrectAmended dStripScenario (by decide) (by decide)).1
    ("enc.weight".toList) 1).mpr (by decide)

/-! Claim C2: the generic fallback (strategy 3b). -/

theorem strip_ne_nil_iff_any {α : Type} (t : SD α) (p : Str) :
    strip_prefix t p ≠ [] ↔ t.any (fun kv => startswith p kv.1) = true := by
  rw [Ne, strip_prefix_eq_nil_iff, List.any_eq_true]
  constructor
  · intro h
    by_contra hno
    apply h
    intro kv hkv
    by_contra hs
    exact hno ⟨kv, hkv, by simpa using hs⟩
  · rintro ⟨kv, hkv, hs⟩ hall
    rw [hall kv hkv] at hs
    exact Bool.false_ne_true hs

/-- C2: when strategy 3a is empty, the cleaning chain builds the tentative
mapping by dropping each key's first segment up through its first dot; if any
resulting key starts with "net." the chain strips that prefix again, otherwise
it keeps the once-shortened keys. Every tentative entry (k, v) comes from an
input entry whose key is a dot-free first segment, a dot, then k, with the
same value. -/
theorem genericFallback {α : Type} (d : SD α)
    (h3a : strip_prefix d netPref = []) :
    cleanKeys d =
      (if (buildTentative d).any (fun kv => startswith netPref kv.1) then
        strip_prefix (buildTentative d) netPref
      else buildTentative d) ∧
    (∀ (k : Str) (v : α), (k, v) ∈ buildTentative d →
      ∃ s : Str, '.' ∉ s ∧ (s ++ '.' :: k, v) ∈ d) := by
  constructor
  · by_cases h2 : strip_prefix (buildTentative d) netPref = []
    · rw [cleanKeys_of_both_nil d h3a h2, if_neg]
      intro hany
      exact ((strip_ne_nil_iff_any _ _).mpr hany) h2
    · rw [cleanKeys_of_strip2_ne d h3a h2,
        if_pos ((strip_ne_nil_iff_any _ _).mp h2)]
  · intro k v hkv
    obtain ⟨kv₀, hkv₀, hsplit, hval⟩ := mem_buildTentative_src hkv
    obtain ⟨s, hns, hk⟩ := splitRest_some hsplit
    refine ⟨s, hns, ?_⟩
    have he : (s ++ '.' :: k, v) = kv₀ := by
      rcases kv₀ with ⟨k₀, v₀⟩
      simp only at hk hval
      rw [hk, hval]
    rw [he]
    exact hkv₀

/-- The spec's generic-fallback scenario input
`{"model.net.layers.0.weight": 1}`. -/
def dGenericScenario : SD Nat := [("model.net.layers.0.weight".toList, 1)]

/-- Witness for C2 at the spec's scenario: strategy 3b then 3a yields
`{"layers.0.weight": 1}`. -/
theorem genericFallbackWitness :
    cleanKeys dGenericScenario = [("layers.0.weight".toList, 1)] :=
  ((genericFallback dGenericScenario (by decide)).1).trans (by decide)

/-! Claim C3: fallback ordering. -/

/-- C3: when no input key begins with "net." but some key contains a dot, the
attempted strategies are exactly 3a then 3b, in that order, without the legacy
loader; and the legacy loader 3c is never attempted when strategy 3a or 3b
produces a non-empty mapping. -/
theorem fallbackOrdering {α : Type} :
    (∀ d : SD α, (∀ kv ∈ d, startswith netPref kv.1 = false) →
      (∃ kv ∈ d, '.' ∈ kv.1) →
      strategyTrace d = [Strategy.s3a, Strategy.s3b]) ∧
    (∀ d : SD α,
      ( strip_prefix d netPref ≠ [] ∨
        strip_prefix (buildTentative d) netPref ≠ [] ∨
        buildTentative d ≠ []) →
      Strategy.s3c ∉ strategyTrace d) := by
  constructor
  · intro d h1 h2
    have hstrip : strip_prefix d netPref = [] :=
      (strip_prefix_eq_nil_iff d netPref).mpr h1
    have htent : buildTentative d ≠ [] := by
      apply buildTentative_ne_nil
      obtain ⟨kv, hkv, hdot⟩ := h2
      exact ⟨kv, hkv, (dot_mem_iff_splitRest kv.1).mp hdot⟩
    have hfin : (if ( strip_prefix (buildTentative d) netPref).isEmpty then
        buildTentative d
      else strip_prefix (buildTentative d) netPref) ≠ [] := by
      by_cases h2' : strip_prefix (buildTentative d) netPref = []
      · rw [if_pos (by simp [List.isEmpty_iff, h2'])]
        exact htent
      · rw [if_neg (by simpa [List.isEmpty_iff] using h2')]
        exact h2'
    unfold strategyTrace
    rw [if_pos (by simp [List.isEmpty_iff, hstrip]),
      if_neg (by simpa [List.isEmpty_iff] using hfin)]
  · intro d h
    unfold strategyTrace
    by_cases hc1 : strip_prefix d netPref = []
    · have hfin : (if ( strip_prefix (buildTentative d) netPref).isEmpty then
          buildTentative d
        else strip_prefix (buildTentative d) netPref) ≠ [] := by
        by_cases h2' : strip_prefix (buildTentative d) netPref = []
        · rw [if_pos (by simp [List.isEmpty_iff, h2'])]
          rcases h with h | h | h
          · exact absurd hc1 h
          · exact absurd h2' h
          · exact h
        · rw [if_neg (by simpa [List.isEmpty_iff] using h2')]
          exact h2'
      rw [if_pos (by simp [List.isEmpty_iff, hc1]),
        if_neg (by simpa [List.isEmpty_iff] using hfin)]
      simp
    · rw [if_neg (by simpa [List.isEmpty_iff] using hc1)]
      simp

/-- Witness for C3 at the generic-fallback scenario input. -/
theorem fallbackOrderingWitness :
    strategyTrace dGenericScenario = [Strategy.s3a, Strategy.s3b] :=
  fallbackOrdering.1 dGenericScenario (by decide) (by decide)

/-! Claim C4: the cleaned-mapping "no net segment" invariant. -/

/-- Whether a key still has the wrapper name "net" as its first dotted
segment: it is exactly "net" or starts with "net.". -/
def netHead (k : Str) : Bool :=
  k == netSeg || startswith netPref k

/-- Hygiene of one input key for the cleaning chain: neither of the two forms
into which the chain can shorten the key (removing its "net." wrapper, or
removing its first segment and then a possible "net." wrapper) still begins
with the "net" segment. -/
def tailNetFree (k : Str) : Bool :=
  (!(startswith netPref k) || !netHead (k.drop netPref.length)) &&
    (match splitRest k with
     | some r =>
         !netHead (if startswith netPref r then r.drop netPref.length else r)
     | none => true)

/-- A doubly wrapped input key. -/
def dNetNet : SD Nat := [("net.net.x".toList, 1)]

/-- C4, counterexample: on input `{"net.net.x": 1}` strategy 3a produces the
cleaned mapping `{"net.x": 1}`, whose key still has "net" as its first
segment; so the invariant fails as stated. -/
theorem cleanedNetKeyCounterexample :
    cleanKeys dNetNet = [("net.x".toList, 1)] ∧
    netHead ("net.x".toList) = true := by
  decide

/-- C4, amended: the cleaned mapping has no key with first segment "net"
provided no input key re-wraps "net": after removing an input key's "net."
wrapper, or its first segment and then a possible "net." wrapper, the
remainder neither equals "net" nor starts with "net.". -/
theorem cleanedNoNetAmended {α : Type} (d : SD α)
    (h : ∀ kv ∈ d, tailNetFree kv.1 = true) :
    ∀ k ∈ (cleanKeys d).map Prod.fst, netHead k = false := by
  intro k hk
  obtain ⟨kv', hkv', hfst⟩ := List.mem_map.mp hk
  subst hfst
  by_cases hc1 : strip_prefix d netPref = []
  · by_cases hc2 : strip_prefix (buildTentative d) netPref = []
    · rw [cleanKeys_of_both_nil d hc1 hc2] at hkv'
      have hsw : startswith netPref kv'.1 = false :=
        (strip_prefix_eq_nil_iff _ _).mp hc2 kv' hkv'
      obtain ⟨kv₀, hkv₀, hsplit, hval⟩ := mem_buildTentative_src hkv'
      have hh := (Bool.and_eq_true _ _).mp (by
        have := h kv₀ hkv₀
        unfold tailNetFree at this
        exact this)
      have hh2 := hh.2
      rw [hsplit] at hh2
      simp only [hsw, Bool.false_eq_true, if_false] at hh2
      simpa using hh2
    · rw [cleanKeys_of_strip2_ne d hc1 hc2] at hkv'
      obtain ⟨kvt, hkvt, hsw, hdrop, hval⟩ := mem_strip_prefix_src hkv'
      obtain ⟨kv₀, hkv₀, hsplit, hval₀⟩ := mem_buildTentative_src hkvt
      have hh := (Bool.and_eq_true _ _).mp (by
        have := h kv₀ hkv₀
        unfold tailNetFree at this
        exact this)
      have hh2 := hh.2
      rw [hsplit] at hh2
      simp only [hsw, if_true] at hh2
      rw [hdrop]
      simpa using hh2
  · rw [cleanKeys_of_strip_ne d hc1] at hkv'
    obtain ⟨kv₀, hkv₀, hsw, hdrop, hval⟩ := mem_strip_prefix_src hkv'
    have hh := (Bool.and_eq_true _ _).mp (by
      have := h kv₀ hkv₀
      unfold tailNetFree at this
      exact this)
    have hh1 := hh.1
    rw [hsw] at hh1
    rw [hdrop]
    simpa using hh1

/-- A singly wrapped, hygienic input. -/
def dCleanHygienic : SD Nat := [("net.enc.weight".toList, 1)]

/-- Witness for the amended C4 at a hygienic input. -/
theorem cleanedNoNetAmendedWitness : netHead ("enc.weight".toList) = false :=
  cleanedNoNetAmended dCleanHygienic (by decide) ("enc.weight".toList)
    (by decide)

/-! The flexible loader of smude/loader.py and its call sites. -/

/-- Default cleaned-weights artifact location under the project root. -/
def defaultWeightsName : String := "smude/model_weights.pth"

/-- Default legacy-checkpoint artifact location under the project root. -/
def defaultCkptName : String := "smude/model.ckpt"

/-- find_model_artifacts of smude/loader.py: each default path, when it
exists on disk. -/
def find_model_artifacts (fsE : String → Bool) :
    Option String × Option String :=
  (if fsE defaultWeightsName then some defaultWeightsName else none,
   if fsE defaultCkptName then some defaultCkptName else none)

/-- External state of one loader invocation: which paths exist on disk, the
missing/unexpected key lists the permissive weights load reports, whether the
legacy Lightning loader is importable, and the key mismatch between the
legacy model's parameter mapping and the UNet shell. -/
structure Env where
  fsE : String → Bool
  missingKeys : List String
  unexpectedKeys : List String
  legacyAvailable : Bool
  legacyMissing : List String
  legacyUnexpected : List String

/-- torch's `Module.load_state_dict`: with strict loading a missing or
unexpected key raises; with permissive loading the two key lists are returned
for the caller to inspect. -/
def load_state_dict (strict : Bool) (missing unexpected : List String) :
    Except String (List String × List String) :=
  if strict && !(missing.isEmpty && unexpected.isEmpty) then
    Except.error "Error(s) in loading state_dict"
  else Except.ok (missing, unexpected)

/-- Outcome of load_model_flexible: a populated model annotated with the path
it came from and whether a key-mismatch warning was printed, or one of the
three failure modes (legacy loader unavailable, strict state-dict load
failure, no artifacts found). -/
inductive LoadResult where
  | model (sourcePath : String) (warned : Bool)
  | errorLegacyUnavailable (msg : String)
  | errorStateDict (msg : String)
  | errorNoArtifacts (msg : String)
  deriving DecidableEq

/-- The FileNotFoundError message of smude/loader.py. -/
def noArtifactsMsg : String :=
  "No model artifacts found. Expected \x27smude/model_weights.pth\x27 or \x27smude/model.ckpt\x27."

/-- The RuntimeError message of the legacy branch of smude/loader.py. -/
def legacyUnavailableMsg : String :=
  "Legacy checkpoint found but legacy Lightning loader is unavailable. Run scripts/extract_model_weights.py with the old environment first."

/-- The path-defaulting step of load_model_flexible: auto-discovery runs only
when neither path was passed. -/
def resolvePaths (fsE : String → Bool) (wpIn cpIn : Option String) :
    Option String × Option String :=
  if wpIn.isNone && cpIn.isNone then find_model_artifacts fsE
  else (wpIn, cpIn)

/-- The legacy-checkpoint branch and the final FileNotFoundError of
load_model_flexible: the legacy model's parameters are copied with a strict
state-dict load. -/
def tryCkpt (env : Env) (cp : Option String) : LoadResult :=
  match cp with
  | some p =>
      if env.fsE p then
        if env.legacyAvailable then
          match load_state_dict true env.legacyMissing env.legacyUnexpected with
          | Except.ok _ => LoadResult.model p false
          | Except.error e => LoadResult.errorStateDict e
        else LoadResult.errorLegacyUnavailable legacyUnavailableMsg
      else LoadResult.errorNoArtifacts noArtifactsMsg
  | none => LoadResult.errorNoArtifacts noArtifactsMsg

/-- load_model_flexible of smude/loader.py: default the paths, then try the
weights path (permissive load with a warning on mismatch), then the legacy
checkpoint, then fail. -/
def load_model_flexible (env : Env) (wpIn cpIn : Option String) : LoadResult :=
  match resolvePaths env.fsE wpIn cpIn with
  | (some p, cp) =>
      if env.fsE p then
        match load_state_dict false env.missingKeys env.unexpectedKeys with
        | Except.ok mu => LoadResult.model p (!(mu.1.isEmpty && mu.2.isEmpty))
        | Except.error e => LoadResult.errorStateDict e
      else tryCkpt env cp
  | (none, cp) => tryCkpt env cp

/-- Outcome of the optional verification step of
scripts/extract_model_weights.py. -/
inductive VerifyOutcome where
  | verified
  | warnedKeys
  | skipped
  deriving DecidableEq

/-- Verification step of scripts/extract_model_weights.py, run after the
artifacts are already saved: wrapped in try/except, loads permissively, and
only warns on a key mismatch. -/
def extractVerification (importOk : Bool) (missing unexpected : List String) :
    Except String VerifyOutcome :=
  if importOk then
    match load_state_dict false missing unexpected with
    | Except.ok mu =>
        Except.ok (if !(mu.1.isEmpty && mu.2.isEmpty) then
            VerifyOutcome.warnedKeys
          else VerifyOutcome.verified)
    | Except.error _ => Except.ok VerifyOutcome.skipped
  else Except.ok VerifyOutcome.skipped

/-- Load step of scripts/smoke_loader_only.py: a permissive load whose key
mismatch is only printed; the returned flag records whether it warned. -/
def smokeLoad (missing unexpected : List String) : Except String Bool :=
  match load_state_dict false missing unexpected with
  | Except.ok mu => Except.ok (!(mu.1.isEmpty && mu.2.isEmpty))
  | Except.error e => Except.error e

/-! Claim C5: key mismatches and fatality. -/

/-- Environment in which the loader falls back to the legacy checkpoint and
the legacy model's parameters do not match the UNet shell. -/
def envLegacyMismatch : Env :=
  ⟨fun p => p == "smude/model.ckpt", [], [], true, ["layers.0.weight"], []⟩

/-- C5, counterexample: in the loader's legacy-checkpoint branch the
parameter copy uses a strict state-dict load, so a key mismatch there makes
load_model_flexible fail rather than warn. -/
theorem legacyStrictMismatchCounterexample :
    envLegacyMismatch.legacyMissing ≠ [] ∧
    load_model_flexible envLegacyMismatch none (some "smude/model.ckpt") =
      LoadResult.errorStateDict "Error(s) in loading state_dict" := by
  decide

/-- C5, amended: key mismatches are non-fatal and surfaced as warnings at the
permissive call sites — the extraction verification, the loader's
cleaned-weights branch, and the smoke test — while the loader's
legacy-checkpoint branch copies parameters strictly, so a mismatch there
fails the load. -/
theorem mismatchNonfatalAmended :
    (∀ (importOk : Bool) (m u : List String),
      extractVerification importOk m u =
        Except.ok (if importOk then
            (if !(m.isEmpty && u.isEmpty) then VerifyOutcome.warnedKeys
             else VerifyOutcome.verified)
          else VerifyOutcome.skipped)) ∧
    (∀ m u : List String,
      smokeLoad m u = Except.ok (!(m.isEmpty && u.isEmpty))) ∧
    (∀ (env : Env) (w : String) (cp : Option String), env.fsE w = true →
      load_model_flexible env (some w) cp =
        LoadResult.model w
          (!(env.missingKeys.isEmpty && env.unexpectedKeys.isEmpty))) ∧
    (∀ (env : Env) (c : String), env.fsE c = true →
      env.legacyAvailable = true →
      (env.legacyMissing.isEmpty && env.legacyUnexpected.isEmpty) = false →
      load_model_flexible env none (some c) =
        LoadResult.errorStateDict "Error(s) in loading state_dict") := by
  refine ⟨?_, ?_, ?_, ?_⟩
  · intro importOk m u
    cases importOk <;> simp [extractVerification, load_state_dict]
  · intro m u
    simp [smokeLoad, load_state_dict]
  · intro env w cp hw
    simp [load_model_flexible, resolvePaths, hw, load_state_dict]
  · intro env c hc hl hmm
    simp [load_model_flexible, resolvePaths, tryCkpt, hc, hl,
      load_state_dict, hmm]

/-- Environment with only an existing weights file and a key mismatch. -/
def envWeightsMismatch : Env :=
  ⟨fun p => p == "smude/model_weights.pth", ["enc.bias"], [], false, [], []⟩

/-- Witness for the amended C5: a mismatch in the cleaned-weights branch only
warns. -/
theorem mismatchNonfatalAmendedWitness :
    load_model_flexible envWeightsMismatch
        (some "smude/model_weights.pth") none =
      LoadResult.model "smude/model_weights.pth" true :=
  mismatchNonfatalAmended.2.2.1 envWeightsMismatch
    "smude/model_weights.pth" none (by decide)

/-! Claim C6: loader precedence. -/

/-- C6: with no explicit paths and both default artifacts present, the
cleaned-weights file is used and the checkpoint ignored; an explicit weights
path that exists wins over an explicit checkpoint path; and an explicit
checkpoint path is used without auto-discovering the default weights file. -/
theorem loaderPrecedence :
    (∀ env : Env, env.fsE defaultWeightsName = true →
      env.fsE defaultCkptName = true →
      load_model_flexible env none none =
        LoadResult.model defaultWeightsName
          (!(env.missingKeys.isEmpty && env.unexpectedKeys.isEmpty))) ∧
    (∀ (env : Env) (w c : String), env.fsE w = true →
      load_model_flexible env (some w) (some c) =
        LoadResult.model w
          (!(env.missingKeys.isEmpty && env.unexpectedKeys.isEmpty))) ∧
    (∀ (env : Env) (c : String), env.fsE c = true →
      env.fsE defaultWeightsName = true → env.legacyAvailable = true →
      env.legacyMissing = [] → env.legacyUnexpected = [] →
      load_model_flexible env none (some c) = LoadResult.model c false) := by
  refine ⟨?_, ?_, ?_⟩
  · intro env hw hc
    simp [load_model_flexible, resolvePaths, find_model_artifacts, hw, hc,
      load_state_dict]
  · intro env w c hw
    simp [load_model_flexible, resolvePaths, hw, load_state_dict]
  · intro env c hc hw hl hm hu
    simp [load_model_flexible, resolvePaths, tryCkpt, hc, hl, hm, hu,
      load_state_dict]

/-- Environment in which both default artifacts exist and the weights load
cleanly. -/
def envBothArtifacts : Env :=
  ⟨fun p => p == defaultWeightsName || p == defaultCkptName,
    [], [], true, [], []⟩

/-- Witness for C6: both defaults present, no explicit paths — the weights
file is chosen. -/
theorem loaderPrecedenceWitness :
    load_model_flexible envBothArtifacts none none =
      LoadResult.model defaultWeightsName false :=
  loaderPrecedence.1 envBothArtifacts (by decide) (by decide)

/-! Claim C7: missing-artifacts error. -/

/-- C7: with no explicit paths and neither default artifact present, the
loader fails with the "no model artifacts found" error, whose message names
both expected default locations. -/
theorem noArtifactsError (env : Env)
    (hw : env.fsE defaultWeightsName = false)
    (hc : env.fsE defaultCkptName = false) :
    load_model_flexible env none none =
      LoadResult.errorNoArtifacts noArtifactsMsg ∧
    ∃ a b c : String,
      noArtifactsMsg = a ++ defaultWeightsName ++ b ++ defaultCkptName ++ c := by
  constructor
  · simp [load_model_flexible, resolvePaths, find_model_artifacts, tryCkpt,
      hw, hc]
  · exact ⟨"No model artifacts found. Expected \x27", "\x27 or \x27", "\x27.",
      by decide⟩

/-- Environment with no artifacts on disk at all. -/
def envNoArtifacts : Env := ⟨fun _ => false, [], [], false, [], []⟩

/-- Witness for C7 in an empty-disk environment. -/
theorem noArtifactsErrorWitness :
    load_model_flexible envNoArtifacts none none =
      LoadResult.errorNoArtifacts noArtifactsMsg :=
  (noArtifactsError envNoArtifacts rfl rfl).1

/-! Claim C10: explicit paths suppress auto-discovery. -/

/-- C10: if at least one path is passed explicitly, the path-defaulting step
returns the arguments untouched (no auto-discovery); in particular an
explicit, non-existing weights path with no checkpoint path yields the
"no model artifacts found" error even though both default artifacts exist. -/
theorem explicitSkipsAuto :
    (∀ (fsE : String → Bool) (wpIn cpIn : Option String),
      (wpIn.isSome || cpIn.isSome) = true →
      resolvePaths fsE wpIn cpIn = (wpIn, cpIn)) ∧
    (∀ (env : Env) (w : String), env.fsE w = false →
      env.fsE defaultWeightsName = true → env.fsE defaultCkptName = true →
      load_model_flexible env (some w) none =
        LoadResult.errorNoArtifacts noArtifactsMsg) := by
  constructor
  · intro fsE wpIn cpIn h
    cases wpIn <;> cases cpIn <;> simp_all [resolvePaths]
  · intro env w hw _ _
    simp [load_model_flexible, resolvePaths, tryCkpt, hw]

/-- Environment where both default artifacts exist but "missing.pth" does
not. -/
def envDefaultsExist : Env :=
  ⟨fun p => !(p == "missing.pth"), [], [], false, [], []⟩

/-- Witness for C10: explicit non-existing weights path, defaults present —
still the no-artifacts error, with no auto-discovery. -/
theorem explicitSkipsAutoWitness :
    resolvePaths envDefaultsExist.fsE (some "missing.pth") none =
      (some "missing.pth", none) ∧
    load_model_flexible envDefaultsExist (some "missing.pth") none =
      LoadResult.errorNoArtifacts noArtifactsMsg :=
  ⟨explicitSkipsAuto.1 envDefaultsExist.fsE (some "missing.pth") none rfl,
   explicitSkipsAuto.2 envDefaultsExist "missing.pth" (by decide) (by decide)
     (by decide)⟩

/-! Claim C8: config invariance. -/

/-- The four-field UNet architecture configuration. -/
structure ModelConfig where
  num_classes : Nat
  num_layers : Nat
  features_start : Nat
  bilinear : Bool
  deriving DecidableEq

/-- The config dict scripts/extract_model_weights.py persists: a literal that
does not depend on the checkpoint contents. -/
def extractedConfig {α : Type} (_state : SD α) : ModelConfig :=
  ⟨4, 5, 64, true⟩

/-- DEFAULT_CONFIG of smude/loader.py. -/
def DEFAULT_CONFIG : ModelConfig := ⟨4, 5, 64, true⟩

/-- C8: the persisted configuration is the same four values for every
checkpoint content, and the loader's default configuration equals them. -/
theorem configInvariance :
    (∀ d : SD Nat, extractedConfig d = ModelConfig.mk 4 5 64 true) ∧
    DEFAULT_CONFIG = ModelConfig.mk 4 5 64 true :=
  ⟨fun _ => rfl, rfl⟩

/-! Claim C9: state-mapping extraction from the checkpoint. -/

/-- A deserialized checkpoint value: a string-keyed mapping or an opaque
tensor. -/
inductive PyVal (α : Type) where
  | vdict (entries : List (String × PyVal α))
  | vtensor (t : α)

/-- Python `d.get(k, default)` on a mapping with unique keys. -/
def dictGet {α : Type} (es : List (String × PyVal α)) (k : String)
    (dflt : PyVal α) : PyVal α :=
  match es.find? (fun p => p.1 == k) with
  | some p => p.2
  | none => dflt

/-- `ckpt.get("state_dict", ckpt)` of scripts/extract_model_weights.py. -/
def extractStateDict {α : Type} (es : List (String × PyVal α)) : PyVal α :=
  dictGet es "state_dict" (PyVal.vdict es)

theorem find?_key_of_mem_nodup {β : Type} (k : String) :
    ∀ (es : List (String × β)) (v : β),
      (es.map Prod.fst).Nodup → (k, v) ∈ es →
      es.find? (fun p => p.1 == k) = some (k, v) := by
  intro es
  induction es with
  | nil =>
    intro v _ h
    simp at h
  | cons kv es' ih =>
    intro v hnd hmem
    rw [List.map_cons] at hnd
    have hnd' := List.nodup_cons.mp hnd
    rcases List.mem_cons.mp hmem with he | he
    · rw [← he]
      exact List.find?_cons_of_pos _ (by simp)
    · have hne : (kv.1 == k) = false := by
        rw [beq_eq_false_iff_ne]
        intro hk
        exact hnd'.1 (hk ▸ List.mem_map.mpr ⟨(k, v), he, rfl⟩)
      rw [List.find?_cons_of_neg _ (by simp [hne]), ih v hnd'.2 he]

/-- C9: if the checkpoint mapping (with unique keys) has an entry named
"state_dict", that entry's value becomes the parameter mapping; otherwise the
whole checkpoint mapping is used. -/
theorem stateDictExtraction {α : Type} (es : List (String × PyVal α))
    (hnd : (es.map Prod.fst).Nodup) :
    (∀ v : PyVal α, ("state_dict", v) ∈ es → extractStateDict es = v) ∧
    ((∀ kv ∈ es, kv.1 ≠ "state_dict") →
      extractStateDict es = PyVal.vdict es) := by
  constructor
  · intro v hv
    unfold extractStateDict dictGet
    rw [find?_key_of_mem_nodup "state_dict" es v hnd hv]
  · intro hnone
    unfold extractStateDict dictGet
    have hfind : es.find? (fun p => p.1 == "state_dict") = none :=
      List.find?_eq_none.mpr (fun p hp => by simpa using hnone p hp)
    rw [hfind]

/-- A Lightning-style checkpoint value with a nested state mapping. -/
def ckptEntries : List (String × PyVal Nat) :=
  [("epoch", PyVal.vtensor 42),
   ("state_dict", PyVal.vdict [("net.enc.weight", PyVal.vtensor 7)])]

/-- Witness for C9: the nested "state_dict" entry of a concrete checkpoint is
selected. -/
theorem stateDictExtractionWitness :
    extractStateDict ckptEntries =
      PyVal.vdict [("net.enc.weight", PyVal.vtensor 7)] :=
  (stateDictExtraction ckptEntries (by decide)).1 _
    (List.mem_cons_of_mem _ (List.mem_cons_self _ _))

end Smude
